import Mathlib

/-
  Verification development for the DARKNEXT crawl-and-extract pipeline.

  The Python sources are embedded shallowly: strings are lists of characters,
  machine text is handled at the code-point level, the external regular
  expression engine (the re library) enters either as an explicit scanner
  translated from the concrete pattern or as a parameter recording the findall
  results, and network fetches are parameters of the crawl loop.  Character
  class and case conversions are modelled over the ASCII range, which is the
  range the embedded predicates are applied to.
-/

/-! ## Character classes and case folding -/

/-- Code-point test for the regex word class (ASCII range): digits 48-57,
upper-case letters 65-90, lower-case letters 97-122 and the underscore 95. -/
def isWordNat (n : Nat) : Bool :=
  (48 ≤ n && n ≤ 57) || (65 ≤ n && n ≤ 90) || (97 ≤ n && n ≤ 122) || n == 95

/-- Word-character test on characters, via their code points. -/
def isWordChar (c : Char) : Bool := isWordNat c.toNat

/-- Lower-casing on code points (ASCII range), modelling str.lower and the
comparison performed under re.IGNORECASE. -/
def lowerNat (n : Nat) : Nat := if 65 ≤ n && n ≤ 90 then n + 32 else n

/-- Lower-cased code point of a character. -/
def lowerCode (c : Char) : Nat := lowerNat c.toNat

/-- Is position i of s occupied by a word character.  Out-of-range positions
(before the start or after the end of the subject) count as non-word. -/
def wordAt (s : List Char) (i : Nat) : Bool :=
  match s.get? i with
  | some c => isWordChar c
  | none => false

/-- Is the position immediately before position i occupied by a word
character.  Position 0 has no predecessor, which counts as non-word. -/
def prevWordAt (s : List Char) (i : Nat) : Bool :=
  match i with
  | 0 => false
  | j+1 => wordAt s j

/-- Word-boundary test of the regex engine at position i of s: the positions
immediately before and at i disagree on being word characters. -/
def boundaryAt (s : List Char) (i : Nat) : Bool :=
  prevWordAt s i != wordAt s i

/-! ## Keyword scanning (ContentParser._find_keyword_matches)

The compiled pattern is a word-boundary anchor, the re.escape literal of the
keyword, and a closing word-boundary anchor, searched with re.IGNORECASE and
re.finditer (leftmost matches, continuing after the end of each match). -/

/-- The characters of kw occur literally (case-insensitively) in s starting at
position i. -/
def litMatchAt (s kw : List Char) (i : Nat) : Bool :=
  ((s.drop i).take kw.length).map lowerCode == kw.map lowerCode

/-- Full pattern test at one position: word boundary, case-insensitive
literal, word boundary. -/
def reMatchAt (s kw : List Char) (i : Nat) : Bool :=
  boundaryAt s i && litMatchAt s kw i && boundaryAt s (i + kw.length)

/-- Scanner loop of re.finditer: try each start position from left to right,
and continue after the end of a match.  The fuel argument only bounds the
recursion; reFindIter below supplies enough for the whole subject. -/
def reFindGo (s kw : List Char) : Nat → Nat → List Nat
  | 0, _ => []
  | fuel+1, i =>
    if i < s.length then
      if reMatchAt s kw i then i :: reFindGo s kw fuel (i + kw.length)
      else reFindGo s kw fuel (i + 1)
    else []

/-- Start positions of the matches of the word-bounded keyword pattern in s,
in scan order. -/
def reFindIter (s kw : List Char) : List Nat := reFindGo s kw (s.length + 1) 0

/-- Python str.strip: remove whitespace from both ends. -/
def pyStrip (s : List Char) : List Char :=
  ((s.dropWhile Char.isWhitespace).reverse.dropWhile Char.isWhitespace).reverse

/-- ContentParser._get_context: a window of ctxLen characters on both sides of
the match occupying positions start to stop, with an ellipsis marker on each
truncated side, stripped. -/
def get_context (content : List Char) (start stop ctxLen : Nat) : List Char :=
  let contextStart := start - ctxLen
  let contextEnd := min content.length (stop + ctxLen)
  let ctx := (content.take contextEnd).drop contextStart
  let ctx2 := (if 0 < contextStart then "...".toList else []) ++ ctx
  let ctx3 := ctx2 ++ (if contextEnd < content.length then "...".toList else [])
  pyStrip ctx3

/-- One keyword match record: the keyword, the match offset, and the
surrounding context window. -/
structure KeywordMatch where
  keyword : List Char
  position : Nat
  context : List Char
deriving DecidableEq

/-- ContentParser._find_keyword_matches: for each keyword of the keyword set
(the set is modelled as a list in its iteration order), append one record per
occurrence found by the scanner. -/
def find_keyword_matches (keywords : List (List Char)) (content : List Char) :
    List KeywordMatch :=
  keywords.flatMap (fun kw =>
    (reFindIter content kw).map (fun p =>
      { keyword := kw, position := p
        context := get_context content p (p + kw.length) 100 }))

/-- ContentParser._create_snippet: with no keyword matches, the leading window
of the text with a trailing ellipsis when truncated; otherwise a window of
maxLen characters centred on the offset of the first match, ellipsis-marked on
each truncated side and stripped. -/
def create_snippet (content : List Char) (keywordMatches : List KeywordMatch)
    (maxLen : Nat) : List Char :=
  match keywordMatches with
  | [] => content.take maxLen ++ (if maxLen < content.length then "...".toList else [])
  | first :: _ =>
    let start := first.position - maxLen / 2
    let stop := min content.length (start + maxLen)
    let snip := (content.take stop).drop start
    let snip2 := (if 0 < start then "...".toList else []) ++ snip
    let snip3 := snip2 ++ (if stop < content.length then "...".toList else [])
    pyStrip snip3

/-! ## Entity extraction (ContentParser._extract_entities) -/

/-- ContentParser._is_valid_cc_format: drop hyphens and whitespace, require an
all-digit string of 13 to 19 characters. -/
def is_valid_cc_format (cc : List Char) : Bool :=
  let ccClean := cc.filter (fun ch => !(ch == '-' || ch.isWhitespace))
  ccClean.length != 0 && ccClean.all Char.isDigit &&
    (13 ≤ ccClean.length && ccClean.length ≤ 19)

/-- Conversion of a decimal digit string to a number, modelling the int
builtin on the all-digit strings produced by the IP pattern; none models a
raised ValueError. -/
def parse_int_digits (s : List Char) : Option Nat :=
  if s.length != 0 && s.all Char.isDigit then
    some (s.foldl (fun acc c => acc * 10 + (c.toNat - 48)) 0)
  else none

/-- ContentParser._is_valid_ip: split on dots, require exactly four parts,
each parsing as an integer between 0 and 255. -/
def is_valid_ip (ip : List Char) : Bool :=
  let parts := ip.splitOn '.'
  parts.length == 4 &&
    parts.all (fun p =>
      match parse_int_digits p with
      | some n => n ≤ 255
      | none => false)

/-- Findall results of the compiled entity patterns.  The regular-expression
engine is external to the embedding; extract_entities is parametric in the
results its findall calls return on each input text.  The api-key group is a
list, one finder per compiled pattern variant. -/
structure RegexLib where
  email_findall : List Char → List (List Char)
  btc_legacy_findall : List Char → List (List Char)
  btc_segwit_findall : List Char → List (List Char)
  eth_findall : List Char → List (List Char)
  xmr_findall : List Char → List (List Char)
  phone_findall : List Char → List (List Char)
  cc_findall : List Char → List (List Char)
  ip_findall : List Char → List (List Char)
  url_findall : List Char → List (List Char)
  ssh_key_findall : List Char → List (List Char)
  pgp_findall : List Char → List (List Char)
  api_key_findalls : List (List Char → List (List Char))

/-- ContentParser._extract_entities: run every findall, deduplicate via a set
for most kinds (List.dedup models the set round-trip; the set iteration order
of Python is not fixed, only membership and freedom from duplicates are),
filter credit-card and IP candidates through the format validators without
deduplication, and finally drop the kinds whose value list is empty. -/
def extract_entities (lib : RegexLib) (content : List Char) :
    List (List Char × List (List Char)) :=
  let entities : List (List Char × List (List Char)) := [
    ("emails".toList, (lib.email_findall content).dedup),
    ("bitcoin_addresses".toList,
      (lib.btc_legacy_findall content ++ lib.btc_segwit_findall content).dedup),
    ("ethereum_addresses".toList, (lib.eth_findall content).dedup),
    ("monero_addresses".toList, (lib.xmr_findall content).dedup),
    ("phone_numbers".toList, (lib.phone_findall content).dedup),
    ("credit_cards".toList, (lib.cc_findall content).filter is_valid_cc_format),
    ("ip_addresses".toList, (lib.ip_findall content).filter is_valid_ip),
    ("urls".toList, (lib.url_findall content).dedup),
    ("ssh_keys".toList, (lib.ssh_key_findall content).dedup),
    ("pgp_keys".toList, (lib.pgp_findall content).dedup),
    ("api_keys".toList, (lib.api_key_findalls.flatMap (fun f => f content)).dedup)]
  entities.filter (fun kv => !kv.2.isEmpty)

/-! ## Finding assembly (ContentParser.parse_content) -/

/-- Page data handed to the parser by the crawler: the fields of the result
dictionary of crawl_page that parse_content reads. -/
structure PageData where
  url : List Char
  title : List Char
  timestamp : Nat
  content : List Char
  content_length : Nat
deriving DecidableEq

/-- Finding record assembled by parse_content. -/
structure Finding where
  url : List Char
  title : List Char
  timestamp : Nat
  keyword_matches : List KeywordMatch
  entities : List (List Char × List (List Char))
  content_snippet : List Char
  content_length : Nat
  has_matches : Bool
deriving DecidableEq

/-- ContentParser.parse_content: lower-case the text, find the keyword
matches there, extract entities from the original text when the toggle is on,
and assemble the Finding with the derived has_matches flag (nonempty keyword
matches, or a truthy value list of some entity kind). -/
def parse_content (keywords : List (List Char)) (lib : RegexLib)
    (extractEnabled : Bool) (page : PageData) : Finding :=
  let contentLower := page.content.map Char.toLower
  let keywordMatches := find_keyword_matches keywords contentLower
  let entities := if extractEnabled then extract_entities lib page.content else []
  { url := page.url
    title := page.title
    timestamp := page.timestamp
    keyword_matches := keywordMatches
    entities := entities
    content_snippet := create_snippet page.content keywordMatches 500
    content_length := page.content_length
    has_matches := decide (0 < keywordMatches.length) ||
      entities.any (fun kv => !kv.2.isEmpty) }

/-! ## URL parsing (urllib.parse.urlparse, the fields used by this program) -/

/-- Characters admissible in a URL scheme after the leading letter. -/
def isSchemeChar (c : Char) : Bool :=
  c.isAlphanum || c == '+' || c == '-' || c == '.'

/-- Scheme split of urlparse: a colon-terminated leading run of scheme
characters beginning with a letter yields the lower-cased scheme and the
remainder; otherwise the scheme is empty and the whole URL remains. -/
def splitScheme (url : List Char) : List Char × List Char :=
  let pre := url.takeWhile (fun c => c != ':')
  if pre.length < url.length &&
      pre.length != 0 && pre.all isSchemeChar && (pre.headD ' ').isAlpha then
    (pre.map Char.toLower, url.drop (pre.length + 1))
  else ([], url)

/-- Network-location component: after a leading double slash, everything up to
the first slash, question mark or hash; empty without the double slash. -/
def takeNetloc (rest : List Char) : List Char :=
  if rest.take 2 == "//".toList then
    (rest.drop 2).takeWhile (fun c => !(c == '/' || c == '?' || c == '#'))
  else []

/-- Scheme field of urlparse. -/
def urlScheme (url : List Char) : List Char := (splitScheme url).1

/-- Netloc field of urlparse. -/
def urlNetloc (url : List Char) : List Char := takeNetloc (splitScheme url).2

/-! ## Onion-address validation -/

/-- TorCrawler._is_valid_onion_url: scheme http or https and netloc ending in
the onion suffix; nothing else is checked. -/
def is_valid_onion_url (url : List Char) : Bool :=
  (urlScheme url == "http".toList || urlScheme url == "https".toList) &&
    ".onion".toList.isSuffixOf (urlNetloc url)

/-- TorCrawler._same_domain: equality of the netloc fields. -/
def same_domain (url1 url2 : List Char) : Bool := urlNetloc url1 == urlNetloc url2

/-- Python str.replace with an empty replacement: delete every non-overlapping
occurrence of pat, scanning from the left.  The fuel is the subject length,
which suffices because every step consumes at least one character. -/
def replaceAllGo (pat : List Char) : Nat → List Char → List Char
  | 0, s => s
  | _+1, [] => []
  | fuel+1, c :: rest =>
    if pat != [] && pat.isPrefixOf (c :: rest) then
      replaceAllGo pat fuel ((c :: rest).drop pat.length)
    else c :: replaceAllGo pat fuel rest

/-- Deletion of every occurrence of pat in s, modelling s.replace(pat, empty). -/
def pyReplaceAll (s pat : List Char) : List Char := replaceAllGo pat s.length s

/-- Base32 alphabet of base64.b32decode: upper-case letters and digits 2-7. -/
def isB32Char (c : Char) : Bool :=
  ('A' ≤ c && c ≤ 'Z') || ('2' ≤ c && c ≤ '7')

/-- Success predicate of base64.b32decode: the input length must be a multiple
of eight, every character before the trailing padding must be in the base32
alphabet, and the number of trailing pad characters must be 0, 1, 3, 4 or 6. -/
def b32decode_ok (s : List Char) : Bool :=
  let stripped := (s.reverse.dropWhile (fun c => c == '=')).reverse
  let padchars := s.length - stripped.length
  s.length % 8 == 0 &&
    stripped.all isB32Char &&
    (padchars == 0 || padchars == 1 || padchars == 3 || padchars == 4 || padchars == 6)

/-- utils.validate_onion_url: check the scheme, the onion suffix, delete the
suffix string from the netloc, require body length 16 or 56, and attempt a
base32 decode of the upper-cased body with six pad characters appended. -/
def validate_onion_url (url : List Char) : Bool :=
  if !(urlScheme url == "http".toList || urlScheme url == "https".toList) then false
  else if !(".onion".toList.isSuffixOf (urlNetloc url)) then false
  else
    let domain := pyReplaceAll (urlNetloc url) ".onion".toList
    if !(domain.length == 16 || domain.length == 56) then false
    else b32decode_ok (domain.map Char.toUpper ++ "======".toList)

/-! ## Frontier traversal (TorCrawler.crawl_site)

The body of crawl_page is network input/output; the loop sees it as a function
from a URL to an optional page (none covers a non-success status, a timeout or
connection error, and text below the minimum length).  The fetched field of
the state is the instrumentation trace of the URLs passed to crawl_page. -/

/-- Fetched page as the frontier sees it: its URL and its outbound links
(already filtered by is_valid_onion_url inside crawl_page). -/
structure SitePage where
  url : List Char
  links : List (List Char)
deriving DecidableEq

/-- Loop state of crawl_site: the results list, the visited set (a list,
Python uses a hash set; only membership is consulted), the pending queue, and
the ghost trace of fetched URLs. -/
structure CrawlState where
  results : List SitePage
  visited : List (List Char)
  queue : List (List Char)
  fetched : List (List Char)
deriving DecidableEq

/-- Link admission loop of crawl_site: append each link that is neither
visited nor already pending (the pending check sees links admitted earlier in
the same pass) and shares the domain of the seed. -/
def enqueueLinks (visited : List (List Char)) (base : List Char)
    (queue : List (List Char)) (links : List (List Char)) : List (List Char) :=
  links.foldl (fun q link =>
    if link ∉ visited ∧ link ∉ q ∧ same_domain base link = true
    then q ++ [link] else q) queue

/-- One iteration of the crawl_site while loop: none signals loop exit (empty
queue or page cap reached); otherwise pop the head, skip it when visited, or
mark it visited, fetch it, and on success record the page and admit its
links. -/
def crawl_step (fetch : List Char → Option SitePage) (maxPages : Nat)
    (base : List Char) (st : CrawlState) : Option CrawlState :=
  match st.queue with
  | [] => none
  | url :: rest =>
    if maxPages ≤ st.results.length then none
    else if url ∈ st.visited then some { st with queue := rest }
    else
      let visited2 := st.visited ++ [url]
      let fetched2 := st.fetched ++ [url]
      match fetch url with
      | none => some { st with visited := visited2, queue := rest, fetched := fetched2 }
      | some page =>
        some { results := st.results ++ [page]
               visited := visited2
               queue := enqueueLinks visited2 base rest page.links
               fetched := fetched2 }

/-- Iterate the crawl loop n times, stopping early once the loop exits. -/
def crawl_iter (fetch : List Char → Option SitePage) (maxPages : Nat)
    (base : List Char) : Nat → CrawlState → CrawlState
  | 0, st => st
  | n+1, st =>
    match crawl_step fetch maxPages base st with
    | none => st
    | some st2 => crawl_iter fetch maxPages base n st2

/-- Initial state of crawl_site for a seed URL. -/
def initState (base : List Char) : CrawlState :=
  { results := [], visited := [], queue := [base], fetched := [] }

/-! ## Concurrent batch fetch (AsyncTorCrawler.crawl_urls_async) -/

/-- Outcome of one crawl_page_async task as asyncio.gather with
return_exceptions collects it: a page dictionary, the value none (non-success
status, timeout, or text below the minimum length), or a captured exception. -/
inductive AsyncOutcome where
  | ok (page : PageData)
  | skipped
  | raised
deriving DecidableEq

/-- AsyncTorCrawler.crawl_urls_async: gather the per-URL outcomes in batch
order, then keep exactly the results that are neither none nor exceptions. -/
def crawl_urls_async (fetchOutcome : List Char → AsyncOutcome)
    (urls : List (List Char)) : List PageData :=
  let results := urls.map fetchOutcome
  results.filterMap (fun r =>
    match r with
    | AsyncOutcome.ok p => some p
    | AsyncOutcome.skipped => none
    | AsyncOutcome.raised => none)

/-! ## Content-size handling (TorCrawler.crawl_page, lines 85 to 127)

The response is modelled as its decoded character sequence where every
character carries its width in the transport encoding: the byte string
response.content has the total width as its length, while response.text has
one entry per character.  Markup-to-text conversion (BeautifulSoup) and the
clock are external and elided; the field subset modelled here is the one the
size logic reads and writes. -/

/-- Decoded character together with its byte width in the wire encoding. -/
structure EncChar where
  ch : Char
  width : Nat
deriving DecidableEq

/-- Byte length of a decoded text: the length of response.content. -/
def byteLen (text : List EncChar) : Nat := (text.map EncChar.width).sum

/-- Size branch of crawl_page: when the byte length of response.content
exceeds the cap, keep the first maxLength entries of response.text (a
character count, not a byte count); otherwise keep the whole text. -/
def truncate_content (text : List EncChar) (maxLength : Nat) : List EncChar :=
  if maxLength < byteLen text then text.take maxLength else text

/-- Response as crawl_page reads it: HTTP status and decoded body. -/
structure HttpResponse where
  status_code : Nat
  text : List EncChar
deriving DecidableEq

/-- Fetch path of crawl_page: reject a non-success status, truncate oversized
content, extract the visible text (getText stands for the BeautifulSoup
get_text call), reject text below the minimum length, and otherwise return the
page dictionary.  Title and timestamp come from the elided externals and are
left empty here; links are handled by the frontier model. -/
def crawl_page (getText : List EncChar → List Char) (minLength maxLength : Nat)
    (url : List Char) (resp : HttpResponse) : Option PageData :=
  if resp.status_code != 200 then none
  else
    let content := truncate_content resp.text maxLength
    let textContent := getText content
    if textContent.length < minLength then none
    else some { url := url, title := [], timestamp := 0,
                content := textContent, content_length := content.length }

/-! ## Continuous monitoring (DarkNext.run_continuous_monitoring)

The shared stop flag is written by the signal handler and read at specific
program points; the model gives every observable step (a flag read at the top
of the while loop, one page fetch inside run_single_scan, one sleep tick of
the inter-scan wait) one tick of a global clock, and the flag reads false
exactly from tick stopTime on.  run_single_scan performs its fetches without
consulting the flag, which is faithful to the source: neither run_single_scan
nor crawl_site reads self.running. -/

/-- Observable events of the monitoring loop. -/
inductive MonEvent where
  | flagCheck
  | fetch
  | sleepTick
deriving DecidableEq

/-- Inter-scan wait: before each of the interval sleep seconds, re-read the
flag and break once it is false. -/
def sleepLoop (stopTime : Nat) : Nat → Nat → List MonEvent
  | 0, _ => []
  | k+1, clock =>
    if stopTime ≤ clock then []
    else MonEvent.sleepTick :: sleepLoop stopTime k (clock + 1)

/-- Monitoring loop: read the flag; while it is true, run one full scan of
pages fetches (no flag reads inside), then the inter-scan wait, then repeat.
The fuel bounds the recursion; run_continuous_monitoring supplies enough fuel
because every iteration advances the clock and the loop exits once the clock
reaches stopTime. -/
def monitorGo (pages interval stopTime : Nat) : Nat → Nat → List MonEvent
  | 0, _ => []
  | fuel+1, clock =>
    if stopTime ≤ clock then []
    else
      let scan := List.replicate pages MonEvent.fetch
      let clock2 := clock + 1 + pages
      let sleep := sleepLoop stopTime interval clock2
      MonEvent.flagCheck :: (scan ++ sleep) ++
        monitorGo pages interval stopTime fuel (clock2 + sleep.length)

/-- Event trace of run_continuous_monitoring when the stop flag is set at
tick stopTime. -/
def run_continuous_monitoring (pages interval stopTime : Nat) : List MonEvent :=
  monitorGo pages interval stopTime (stopTime + 1) 0

/-! ## IPv4 findall (the compiled ip_pattern)

The pattern is a word boundary, three groups of one-to-three digits each
followed by a dot, a final group of one-to-three digits, and a word boundary.
Greedy matching with backtracking is deterministic for this pattern: a digit
group can only match the full maximal digit run at its position (after
backtracking, a shorter prefix of a digit run is still followed by a digit,
never by the required dot or boundary), so a match at a position exists only
with the shape tested below. -/

/-- Length of the maximal digit run of s starting at position i. -/
def digitRun (s : List Char) (i : Nat) : Nat :=
  ((s.drop i).takeWhile Char.isDigit).length

/-- Match attempt of the IP pattern at position i: some length of the matched
text, or none. -/
def matchIPv4At (s : List Char) (i : Nat) : Option Nat :=
  let r1 := digitRun s i
  let p2 := i + r1 + 1
  let r2 := digitRun s p2
  let p3 := p2 + r2 + 1
  let r3 := digitRun s p3
  let p4 := p3 + r3 + 1
  let r4 := digitRun s p4
  if !prevWordAt s i &&
      (1 ≤ r1 && r1 ≤ 3) && s.get? (i + r1) == some '.' &&
      (1 ≤ r2 && r2 ≤ 3) && s.get? (p2 + r2) == some '.' &&
      (1 ≤ r3 && r3 ≤ 3) && s.get? (p3 + r3) == some '.' &&
      (1 ≤ r4 && r4 ≤ 3) && !wordAt s (p4 + r4)
  then some (p4 + r4 - i) else none

/-- Scanner loop of re.findall for the IP pattern: leftmost matches,
continuing after the end of each match. -/
def findIPv4Go (s : List Char) : Nat → Nat → List (List Char)
  | 0, _ => []
  | fuel+1, i =>
    if i < s.length then
      match matchIPv4At s i with
      | some len => ((s.drop i).take len) :: findIPv4Go s fuel (i + len)
      | none => findIPv4Go s fuel (i + 1)
    else []

/-- Findall of the compiled ip_pattern over s. -/
def re_findall_ipv4 (s : List Char) : List (List Char) := findIPv4Go s (s.length + 1) 0

/-- Findall results used for pattern families evaluated only on texts where
they cannot match (the concrete texts below contain no letter runs, no
four-digit groups, no three-consecutive-digit runs and no key markers, so
every remaining compiled pattern returns the empty list on them). -/
def noFindall : List Char → List (List Char) := fun _ => []

/-- Concrete regex library used on digits-and-dots texts: the IP scanner is
the explicit translation above and every other family finds nothing on such
texts. -/
def ipOnlyLib : RegexLib :=
  { email_findall := noFindall, btc_legacy_findall := noFindall
    btc_segwit_findall := noFindall, eth_findall := noFindall
    xmr_findall := noFindall, phone_findall := noFindall
    cc_findall := noFindall, ip_findall := re_findall_ipv4
    url_findall := noFindall, ssh_key_findall := noFindall
    pgp_findall := noFindall, api_key_findalls := [noFindall, noFindall, noFindall] }

/-! ## Definitions taken from the specification text (for refinement claims) -/

/-- Modelled from the spec: an occurrence of the keyword at position i of the
text, case-insensitive, that is not immediately preceded and not immediately
followed by a word character.  This is the acceptance condition the claim
states for the keyword matcher; it is compared against the scanner above. -/
def specOccursAt (s kw : List Char) (i : Nat) : Bool :=
  litMatchAt s kw i && !prevWordAt s i && !wordAt s (i + kw.length)

/-! ## Concrete inputs used in closed theorems -/

/-- Batch of five onion URLs. -/
def demoBatch : List (List Char) :=
  ["http://a.onion".toList, "http://b.onion".toList, "http://c.onion".toList,
   "http://d.onion".toList, "http://e.onion".toList]

/-- Outcome assignment where exactly the second and fourth URL of demoBatch
time out (crawl_page_async catches the timeout and returns none). -/
def demoAsyncFetch : List Char → AsyncOutcome := fun u =>
  if u = "http://b.onion".toList ∨ u = "http://d.onion".toList then
    AsyncOutcome.skipped
  else
    AsyncOutcome.ok { url := u, title := [], timestamp := 0, content := [],
                      content_length := 0 }

/-- Findall results of the email pattern on a text containing the one address
twice (the pattern matches each occurrence); every other family finds nothing
on that text. -/
def emailDupLib : RegexLib :=
  { email_findall := fun _ => ["a@b.com".toList, "a@b.com".toList]
    btc_legacy_findall := noFindall, btc_segwit_findall := noFindall
    eth_findall := noFindall, xmr_findall := noFindall
    phone_findall := noFindall, cc_findall := noFindall
    ip_findall := noFindall, url_findall := noFindall
    ssh_key_findall := noFindall, pgp_findall := noFindall
    api_key_findalls := [noFindall, noFindall, noFindall] }

/-- Findall results of the email pattern on the demo page text below, which
contains the one address once; every other family finds nothing on it. -/
def demoLib : RegexLib :=
  { email_findall := fun _ => ["a@b.com".toList]
    btc_legacy_findall := noFindall, btc_segwit_findall := noFindall
    eth_findall := noFindall, xmr_findall := noFindall
    phone_findall := noFindall, cc_findall := noFindall
    ip_findall := noFindall, url_findall := noFindall
    ssh_key_findall := noFindall, pgp_findall := noFindall
    api_key_findalls := [noFindall, noFindall, noFindall] }

/-- Page whose text contains one keyword occurrence (bitcoin) and one email
address. -/
def demoPage : PageData :=
  { url := "http://aaaaaaaaaaaaaaaa.onion/page".toList
    title := "demo".toList
    timestamp := 0
    content := "bitcoin wallet contact a@b.com now".toList
    content_length := 34 }

/-! # Theorems -/

/-! ## Onion validation -/

/-- Appending six pad characters to a body of length 16 or 56 yields a base32
input of length 22 or 62, never a multiple of eight, so the decode fails. -/
lemma b32decode_ok_pad_false (domain : List Char)
    (h : domain.length = 16 ∨ domain.length = 56) :
    b32decode_ok (domain.map Char.toUpper ++ "======".toList) = false := by
  have hlen : (domain.map Char.toUpper ++ "======".toList).length = domain.length + 6 := by
    simp
  have h8 : ((domain.map Char.toUpper ++ "======".toList).length % 8 == 0) = false := by
    rw [hlen]; rcases h with h | h <;> simp [h]
  simp [b32decode_ok, h8]
  intro h0
  rcases h with h | h <;> omega

/-- The validator returns false on every input URL. -/
lemma validate_onion_url_eq_false (url : List Char) : validate_onion_url url = false := by
  simp only [validate_onion_url]
  split
  · rfl
  split
  · rfl
  split
  · rfl
  rename_i hlen
  apply b32decode_ok_pad_false
  exact or_iff_not_imp_left.mpr (by simpa using hlen)

/-- C1: the claim states that validation accepts exactly the URLs with scheme
http or https, an onion-suffixed host, and a 16- or 56-character base32 body,
and that invalid URLs are never enqueued.  The code disagrees twice: the
validator utils.validate_onion_url rejects every URL, because it appends six
pad characters to the body before decoding, making the base32 input length 22
or 62 (never a multiple of eight) so the decode always fails; and the check
the frontier actually uses, TorCrawler._is_valid_onion_url, tests only the
scheme and the suffix, so a two-character host is accepted and enqueued. -/
theorem c1_onion_validation_code_bug :
    (∀ url : List Char, validate_onion_url url = false) ∧
    validate_onion_url "http://aaaaaaaaaaaaaaaa.onion".toList = false ∧
    is_valid_onion_url "http://aaaaaaaaaaaaaaaa.onion".toList = true ∧
    is_valid_onion_url "http://zz.onion".toList = true :=
  ⟨validate_onion_url_eq_false, by decide, by decide, by decide⟩

/-! ## Frontier invariants and termination -/

/-- One crawl step preserves the frontier invariant: the fetch trace has no
duplicates, every fetched URL is recorded as visited, and the results count
never passes the page cap. -/
lemma crawl_step_preserves (f : List Char → Option SitePage) (m : Nat)
    (b : List Char) (st st2 : CrawlState)
    (hstep : crawl_step f m b st = some st2)
    (h1 : st.fetched.Nodup) (h2 : ∀ u ∈ st.fetched, u ∈ st.visited)
    (h3 : st.results.length ≤ m) :
    st2.fetched.Nodup ∧ (∀ u ∈ st2.fetched, u ∈ st2.visited) ∧
      st2.results.length ≤ m := by
  unfold crawl_step at hstep
  cases hq : st.queue with
  | nil => simp only [hq] at hstep; exact Option.noConfusion hstep
  | cons url rest =>
    simp only [hq] at hstep
    by_cases hcap : m ≤ st.results.length
    · simp only [if_pos hcap] at hstep
      exact Option.noConfusion hstep
    · simp only [if_neg hcap] at hstep
      by_cases hvis : url ∈ st.visited
      · simp only [if_pos hvis] at hstep
        obtain rfl := Option.some_inj.mp hstep
        exact ⟨h1, h2, h3⟩
      · simp only [if_neg hvis] at hstep
        have hnewdup : (st.fetched ++ [url]).Nodup := by
          rw [List.nodup_append_comm]
          exact List.nodup_cons.mpr ⟨fun hmem => hvis (h2 url hmem), h1⟩
        have hnewmem : ∀ u ∈ st.fetched ++ [url], u ∈ st.visited ++ [url] := by
          intro u hu
          rcases List.mem_append.mp hu with hu | hu
          · exact List.mem_append.mpr (Or.inl (h2 u hu))
          · exact List.mem_append.mpr (Or.inr hu)
        cases hf : f url with
        | none =>
          simp only [hf] at hstep
          obtain rfl := Option.some_inj.mp hstep
          exact ⟨hnewdup, hnewmem, h3⟩
        | some page =>
          simp only [hf] at hstep
          obtain rfl := Option.some_inj.mp hstep
          refine ⟨hnewdup, hnewmem, ?_⟩
          simp only [List.length_append, List.length_singleton]
          omega

/-- Iterating the crawl loop preserves the invariant. -/
lemma crawl_iter_inv (f : List Char → Option SitePage) (m : Nat) (b : List Char) :
    ∀ (n : Nat) (st : CrawlState),
      st.fetched.Nodup → (∀ u ∈ st.fetched, u ∈ st.visited) →
      st.results.length ≤ m →
      (crawl_iter f m b n st).fetched.Nodup ∧
        (crawl_iter f m b n st).results.length ≤ m := by
  intro n
  induction n with
  | zero => intro st h1 h2 h3; exact ⟨h1, h3⟩
  | succ n ih =>
    intro st h1 h2 h3
    cases hstep : crawl_step f m b st with
    | none => simp only [crawl_iter, hstep]; exact ⟨h1, h3⟩
    | some st2 =>
      obtain ⟨g1, g2, g3⟩ := crawl_step_preserves f m b st st2 hstep h1 h2 h3
      simp only [crawl_iter, hstep]
      exact ih st2 g1 g2 g3

/-- C2: along every run of the crawl_site loop, from any seed and over any
link graph (any fetch function, cyclic graphs included), no URL is passed to
crawl_page twice, and the number of successfully crawled pages never exceeds
the page cap. -/
theorem c2_frontier_no_refetch_and_page_cap :
    ∀ (fetch : List Char → Option SitePage) (maxPages : Nat) (base : List Char)
      (n : Nat),
      (crawl_iter fetch maxPages base n (initState base)).fetched.Nodup ∧
      (crawl_iter fetch maxPages base n (initState base)).results.length ≤ maxPages :=
  fun f m b n =>
    crawl_iter_inv f m b n (initState b) (by simp [initState])
      (by simp [initState]) (by simp [initState])

/-- Progress shape of one crawl step: either a page was added under the cap,
or the results are unchanged and the queue shrank by one. -/
lemma crawl_step_cases (f : List Char → Option SitePage) (m : Nat)
    (b : List Char) (st st2 : CrawlState)
    (hstep : crawl_step f m b st = some st2) :
    (st.results.length < m ∧ st2.results.length = st.results.length + 1) ∨
    (st2.results = st.results ∧ st2.queue.length + 1 = st.queue.length) := by
  unfold crawl_step at hstep
  cases hq : st.queue with
  | nil => simp only [hq] at hstep; exact Option.noConfusion hstep
  | cons url rest =>
    simp only [hq] at hstep
    by_cases hcap : m ≤ st.results.length
    · simp only [if_pos hcap] at hstep
      exact Option.noConfusion hstep
    · by_cases hvis : url ∈ st.visited
      · simp only [if_neg hcap, if_pos hvis] at hstep
        obtain rfl := Option.some_inj.mp hstep
        right
        simp [hq]
      · simp only [if_neg hcap, if_neg hvis] at hstep
        cases hf : f url with
        | none =>
          simp only [hf] at hstep
          obtain rfl := Option.some_inj.mp hstep
          right
          simp [hq]
        | some page =>
          simp only [hf] at hstep
          obtain rfl := Option.some_inj.mp hstep
          left
          refine ⟨by omega, ?_⟩
          simp

/-- Termination of the crawl loop by double induction: every step either
consumes page-cap headroom or shrinks the queue with results unchanged. -/
lemma crawl_terminates_aux (f : List Char → Option SitePage) (m : Nat)
    (b : List Char) :
    ∀ (a q : Nat) (st : CrawlState),
      m - st.results.length ≤ a → st.queue.length ≤ q →
      ∃ n, crawl_step f m b (crawl_iter f m b n st) = none := by
  intro a
  induction a with
  | zero =>
    intro q
    induction q with
    | zero =>
      intro st h1 h2
      have hq : st.queue = [] := List.length_eq_zero.mp (Nat.le_zero.mp h2)
      exact ⟨0, by simp [crawl_iter, crawl_step, hq]⟩
    | succ q ihq =>
      intro st h1 h2
      cases hstep : crawl_step f m b st with
      | none => exact ⟨0, by simpa [crawl_iter] using hstep⟩
      | some st2 =>
        rcases crawl_step_cases f m b st st2 hstep with ⟨hlt, _⟩ | ⟨hres, hqlen⟩
        · omega
        · obtain ⟨n, hn⟩ := ihq st2 (by rw [hres]; exact h1) (by omega)
          exact ⟨n + 1, by simpa [crawl_iter, hstep] using hn⟩
  | succ a iha =>
    intro q
    induction q with
    | zero =>
      intro st h1 h2
      have hq : st.queue = [] := List.length_eq_zero.mp (Nat.le_zero.mp h2)
      exact ⟨0, by simp [crawl_iter, crawl_step, hq]⟩
    | succ q ihq =>
      intro st h1 h2
      cases hstep : crawl_step f m b st with
      | none => exact ⟨0, by simpa [crawl_iter] using hstep⟩
      | some st2 =>
        rcases crawl_step_cases f m b st st2 hstep with ⟨hlt, hsucc⟩ | ⟨hres, hqlen⟩
        · obtain ⟨n, hn⟩ := iha st2.queue.length st2 (by omega) le_rfl
          exact ⟨n + 1, by simpa [crawl_iter, hstep] using hn⟩
        · obtain ⟨n, hn⟩ := ihq st2 (by rw [hres]; exact h1) (by omega)
          exact ⟨n + 1, by simpa [crawl_iter, hstep] using hn⟩

/-- C10: for every fetch function (hence every finite link graph) and every
page cap, the per-seed traversal terminates: after finitely many loop
iterations the loop guard fails. -/
theorem c10_crawl_site_terminates :
    ∀ (fetch : List Char → Option SitePage) (maxPages : Nat) (base : List Char),
      ∃ n, crawl_step fetch maxPages base
        (crawl_iter fetch maxPages base n (initState base)) = none :=
  fun f m b =>
    crawl_terminates_aux f m b m 1 (initState b) (by simp [initState])
      (by simp [initState])

/-! ## Concurrent batch fetch -/

/-- C7: the concurrent batch fetch returns exactly the pages of the
successful fetches, in batch order: a failing URL (timeout, error, or
filtered short content, all collected as non-page outcomes by gather) only
removes its own entry and never aborts the siblings; in particular the
concrete batch of five URLs of which two time out yields exactly three
results. -/
theorem c7_async_batch_failures_local :
    (∀ (f : List Char → AsyncOutcome) (urls : List (List Char)),
      crawl_urls_async f urls = urls.filterMap (fun u =>
        match f u with
        | AsyncOutcome.ok p => some p
        | AsyncOutcome.skipped => none
        | AsyncOutcome.raised => none) ∧
      (crawl_urls_async f urls).length = (urls.filter (fun u =>
        match f u with
        | AsyncOutcome.ok _ => true
        | AsyncOutcome.skipped => false
        | AsyncOutcome.raised => false)).length) ∧
    (crawl_urls_async demoAsyncFetch demoBatch).length = 3 := by
  refine ⟨fun f urls => ⟨List.filterMap_map _ _ _, ?_⟩, by decide⟩
  induction urls with
  | nil => rfl
  | cons u us ih =>
    simp only [crawl_urls_async, List.filterMap_map] at ih ⊢
    simp only [List.filterMap_cons, List.filter_cons, Function.comp_apply]
    cases hf : f u <;> simp [hf, ih]

/-! ## Stop-flag latency of continuous monitoring -/

/-- Sleep ticks stop within the stop time: the inter-scan wait re-reads the
flag before every tick, so it emits at most the ticks that fit before the
flag turns false. -/
lemma sleepLoop_length_le (stopTime : Nat) :
    ∀ (interval clock : Nat),
      (sleepLoop stopTime interval clock).length ≤ stopTime - clock := by
  intro interval
  induction interval with
  | zero => intro clock; simp [sleepLoop]
  | succ k ih =>
    intro clock
    by_cases h : stopTime ≤ clock
    · simp [sleepLoop, h]
    · simp only [sleepLoop, if_neg h, List.length_cons]
      have := ih (clock + 1)
      omega

/-- Once the stop time has passed, the monitoring loop emits nothing. -/
lemma monitorGo_nil (pages interval stopTime : Nat) (fuel clock : Nat)
    (h : stopTime ≤ clock) : monitorGo pages interval stopTime fuel clock = [] := by
  cases fuel <;> simp [monitorGo, h]

/-- Trace-length bound of the monitoring loop: at most the remaining flag
headroom plus one full scan. -/
lemma monitorGo_length_le (pages interval stopTime : Nat) :
    ∀ (fuel clock : Nat),
      (monitorGo pages interval stopTime fuel clock).length ≤
        (stopTime - clock) + pages := by
  intro fuel
  induction fuel with
  | zero => intro clock; simp [monitorGo]
  | succ fuel ih =>
    intro clock
    by_cases h : stopTime ≤ clock
    · simp [monitorGo, h]
    · simp only [monitorGo, if_neg h, List.cons_append, List.length_cons,
        List.length_append, List.length_replicate]
      have hsleep := sleepLoop_length_le stopTime interval (clock + 1 + pages)
      by_cases h2 : stopTime ≤
          clock + 1 + pages + (sleepLoop stopTime interval (clock + 1 + pages)).length
      · rw [monitorGo_nil pages interval stopTime fuel _ h2]
        simp only [List.length_nil]
        omega
      · have := ih (clock + 1 + pages + (sleepLoop stopTime interval (clock + 1 + pages)).length)
        omega

/-- C8 amended: the inter-scan wait does re-read the stop flag before every
delay tick, so no sleep tick is emitted once the flag is down; but the scan
itself performs no flag reads, so after the flag is set the loop may still
complete the current scan in full: the whole trace is bounded by the stop
time plus one full scan of fetches, not by the stop time plus one tick. -/
theorem c8_stop_flag_amended :
    (∀ pages interval stopTime : Nat,
      (run_continuous_monitoring pages interval stopTime).length ≤
        stopTime + pages) ∧
    (∀ stopTime interval clock : Nat,
      (sleepLoop stopTime interval clock).length ≤ stopTime - clock) := by
  constructor
  · intro pages interval stopTime
    have := monitorGo_length_le pages interval stopTime (stopTime + 1) 0
    simpa [run_continuous_monitoring] using this
  · exact fun stopTime interval clock => sleepLoop_length_le stopTime interval clock

/-- C8 counterexample: with three pages per scan, a five-second wait, and the
stop flag set at tick 2 (during the scan), the system emits four events, one
more than the claimed bound of the stop time plus a single delay tick: the
scan in progress runs to completion because neither run_single_scan nor
crawl_site reads the flag. -/
theorem c8_stop_flag_counterexample :
    (run_continuous_monitoring 3 5 2).length = 4 ∧
    ¬ (run_continuous_monitoring 3 5 2).length ≤ 2 + 1 := by
  constructor
  · rfl
  · decide

/-! ## Oversized-content truncation -/

/-- C9 amended: on a success response whose body exceeds the byte cap, the
fetch does not fail: the body is truncated to at most the cap counted in
characters (the code compares bytes but slices the decoded text), and
processing continues to a page whenever the remaining text passes the minimum
length, so oversize is never reported as an error. -/
theorem c9_truncation_amended (getText : List EncChar → List Char)
    (minLength maxLength : Nat) (url : List Char) (resp : HttpResponse)
    (hstatus : resp.status_code = 200)
    (hbig : maxLength < byteLen resp.text)
    (hmin : minLength ≤ (getText (truncate_content resp.text maxLength)).length) :
    ∃ page, crawl_page getText minLength maxLength url resp = some page ∧
      page.content_length ≤ maxLength := by
  have hcap : (truncate_content resp.text maxLength).length ≤ maxLength := by
    unfold truncate_content
    rw [if_pos hbig]
    simp [List.length_take]
  simp only [crawl_page]
  rw [if_neg (by simp [hstatus]), if_neg (by omega)]
  exact ⟨_, rfl, hcap⟩

/-- C9 witness: a 200 response of two two-byte characters against a cap of
three bytes is truncated to the whole two-character text and still yields a
page. -/
theorem c9_truncation_witness :
    ∃ page, crawl_page (fun l => l.map EncChar.ch) 1 3 "http://x.onion".toList
        { status_code := 200, text := [⟨'Ā', 2⟩, ⟨'Ā', 2⟩] } = some page ∧
      page.content_length ≤ 3 :=
  c9_truncation_amended (fun l => l.map EncChar.ch) 1 3 "http://x.onion".toList
    { status_code := 200, text := [⟨'Ā', 2⟩, ⟨'Ā', 2⟩] }
    (by decide) (by decide) (by decide)

/-- C9 counterexample: the same oversized body shows the retained content is
not capped in bytes: the byte cap is 3 but the truncated text still occupies
4 bytes, because the code compares the byte length while slicing a character
count. -/
theorem c9_truncation_counterexample :
    byteLen (truncate_content [⟨'Ā', 2⟩, ⟨'Ā', 2⟩] 3) = 4 ∧
    ¬ byteLen (truncate_content [⟨'Ā', 2⟩, ⟨'Ā', 2⟩] 3) ≤ 3 := by
  constructor
  · rfl
  · decide

/-! ## Keyword match ordering -/

/-- Every position the scanner returns lies at or after the scan start. -/
lemma reFindGo_le (s kw : List Char) :
    ∀ (fuel i j : Nat), j ∈ reFindGo s kw fuel i → i ≤ j := by
  intro fuel
  induction fuel with
  | zero => intro i j hj; simp [reFindGo] at hj
  | succ fuel ih =>
    intro i j hj
    simp only [reFindGo] at hj
    by_cases hlt : i < s.length
    · rw [if_pos hlt] at hj
      by_cases hm : reMatchAt s kw i = true
      · rw [if_pos hm] at hj
        rcases List.mem_cons.mp hj with rfl | hj
        · exact le_rfl
        · exact le_trans (Nat.le_add_right i kw.length) (ih _ _ hj)
      · rw [if_neg hm] at hj
        exact le_trans (Nat.le_succ i) (ih _ _ hj)
    · rw [if_neg hlt] at hj
      simp at hj

/-- For a nonempty keyword the scanner positions are strictly increasing. -/
lemma reFindGo_pairwise (s kw : List Char) (hkw : kw ≠ []) :
    ∀ (fuel i : Nat), (reFindGo s kw fuel i).Pairwise (· < ·) := by
  have hlen : 0 < kw.length := List.length_pos.mpr hkw
  intro fuel
  induction fuel with
  | zero => intro i; simp [reFindGo]
  | succ fuel ih =>
    intro i
    simp only [reFindGo]
    by_cases hlt : i < s.length
    · rw [if_pos hlt]
      by_cases hm : reMatchAt s kw i = true
      · rw [if_pos hm]
        refine List.pairwise_cons.mpr ⟨?_, ih _⟩
        intro j hj
        have := reFindGo_le s kw fuel (i + kw.length) j hj
        omega
      · rw [if_neg hm]
        exact ih _
    · rw [if_neg hlt]
      exact List.Pairwise.nil

/-- Every record produced by the matcher carries one of the given keywords. -/
lemma find_keyword_matches_keyword_mem (keywords : List (List Char))
    (content : List Char) (mr : KeywordMatch)
    (hmr : mr ∈ find_keyword_matches keywords content) : mr.keyword ∈ keywords := by
  unfold find_keyword_matches at hmr
  rcases List.mem_flatMap.mp hmr with ⟨kw, hkw, hmem⟩
  rcases List.mem_map.mp hmem with ⟨p, _, rfl⟩
  exact hkw

/-- With no occurrence of kw among the keywords, the filter for kw returns
nothing. -/
lemma find_keyword_matches_filter_nil (keywords : List (List Char))
    (content kw : List Char) (hkw : kw ∉ keywords) :
    (find_keyword_matches keywords content).filter
      (fun mr => mr.keyword == kw) = [] := by
  rw [List.filter_eq_nil_iff]
  intro mr hmr
  simp only [beq_iff_eq]
  intro heq
  exact hkw (heq ▸ find_keyword_matches_keyword_mem keywords content mr hmr)

/-- The records of the group of one keyword, restricted to that keyword,
reproduce exactly its scanner positions. -/
lemma find_keyword_matches_filter_eq (keywords : List (List Char))
    (content kw : List Char) (hnodup : keywords.Nodup) (hmem : kw ∈ keywords) :
    ((find_keyword_matches keywords content).filter
        (fun mr => mr.keyword == kw)).map KeywordMatch.position =
      reFindIter content kw := by
  induction keywords with
  | nil => simp at hmem
  | cons k ks ih =>
    have hgroup : find_keyword_matches (k :: ks) content =
        ((reFindIter content k).map (fun p =>
          ({ keyword := k, position := p
             context := get_context content p (p + k.length) 100 } : KeywordMatch))) ++
          find_keyword_matches ks content := by
      simp [find_keyword_matches]
    rw [hgroup, List.filter_append]
    by_cases heq : k = kw
    · subst heq
      have hnotin : k ∉ ks := (List.nodup_cons.mp hnodup).1
      rw [find_keyword_matches_filter_nil ks content k hnotin]
      rw [List.filter_map]
      have : (fun mr : KeywordMatch => mr.keyword == k) ∘ (fun p =>
          ({ keyword := k, position := p
             context := get_context content p (p + k.length) 100 } : KeywordMatch)) =
          fun _ => true := by
        funext p
        exact beq_self_eq_true k
      rw [this, List.filter_true, List.append_nil, List.map_map]
      have hid : KeywordMatch.position ∘ (fun p =>
          ({ keyword := k, position := p
             context := get_context content p (p + k.length) 100 } : KeywordMatch)) = id := by
        funext p
        rfl
      rw [hid, List.map_id]
    · have hfilter : ((reFindIter content k).map (fun p =>
          ({ keyword := k, position := p
             context := get_context content p (p + k.length) 100 } : KeywordMatch))).filter
            (fun mr => mr.keyword == kw) = [] := by
        rw [List.filter_eq_nil_iff]
        intro mr hmr
        rcases List.mem_map.mp hmr with ⟨p, _, rfl⟩
        simp [heq]
      rw [hfilter, List.nil_append]
      exact ih (List.nodup_cons.mp hnodup).2
        ((List.mem_cons.mp hmem).resolve_left (fun h => heq h.symm))

/-- C3 amended: the match sequence is grouped by keyword in keyword-set
iteration order, one record per occurrence; within one keyword the records
appear in strictly increasing offset order (so for a single keyword the first
record has the smallest offset), but the global sequence is not sorted by
offset across different keywords. -/
theorem c3_keyword_discovery_order_amended (keywords : List (List Char))
    (content kw : List Char) (hnodup : keywords.Nodup) (hkw : kw ≠ [])
    (hmem : kw ∈ keywords) :
    ((find_keyword_matches keywords content).filter
        (fun mr => mr.keyword == kw)).map KeywordMatch.position =
      reFindIter content kw ∧
    (reFindIter content kw).Pairwise (· < ·) :=
  ⟨find_keyword_matches_filter_eq keywords content kw hnodup hmem,
   reFindGo_pairwise content kw hkw (content.length + 1) 0⟩

/-- C3 witness: on the two-keyword set below the amended statement is applied
to the first keyword. -/
theorem c3_keyword_discovery_order_witness :
    ((find_keyword_matches ["xx".toList, "yy".toList] "yy xx".toList).filter
        (fun mr => mr.keyword == "xx".toList)).map KeywordMatch.position =
      reFindIter "yy xx".toList "xx".toList ∧
    (reFindIter "yy xx".toList "xx".toList).Pairwise (· < ·) :=
  c3_keyword_discovery_order_amended ["xx".toList, "yy".toList] "yy xx".toList
    "xx".toList (by decide) (by decide) (by decide)

/-- C3 counterexample: with keyword-set iteration order xx then yy and the
text below, the match sequence has offsets 3 then 0, so it is not in document
discovery order and its first record is not the occurrence at the smallest
offset. -/
theorem c3_keyword_discovery_order_counterexample :
    ((find_keyword_matches ["xx".toList, "yy".toList] "yy xx".toList).map
        KeywordMatch.position) = [3, 0] ∧
    ¬ List.Pairwise (· ≤ ·)
        ((find_keyword_matches ["xx".toList, "yy".toList] "yy xx".toList).map
          KeywordMatch.position) := by
  constructor
  · rfl
  · decide

/-! ## Entity map shape -/

/-- C4 amended: every kind present in the extracted entity map carries a
nonempty value list (empty kinds are dropped, never stored), and every kind
except credit_cards and ip_addresses carries a duplicate-free value list (the
set round-trip deduplicates them, so a text holding the same email twice
yields one entry); the credit-card and IP kinds are only filtered by their
validators and may keep duplicates. -/
theorem c4_entities_amended (lib : RegexLib) (content : List Char)
    (kv : List Char × List (List Char))
    (hmem : kv ∈ extract_entities lib content) :
    kv.2 ≠ [] ∧
    (kv.1 ≠ "credit_cards".toList ∧ kv.1 ≠ "ip_addresses".toList →
      kv.2.Nodup) := by
  unfold extract_entities at hmem
  rw [List.mem_filter] at hmem
  obtain ⟨hin, hpred⟩ := hmem
  have hne : kv.2 ≠ [] := by
    intro h
    simp [h] at hpred
  refine ⟨hne, fun hkind => ?_⟩
  simp only [List.mem_cons, List.not_mem_nil, or_false] at hin
  rcases hin with rfl | rfl | rfl | rfl | rfl | rfl | rfl | rfl | rfl | rfl | rfl
  · exact List.nodup_dedup _
  · exact List.nodup_dedup _
  · exact List.nodup_dedup _
  · exact List.nodup_dedup _
  · exact List.nodup_dedup _
  · exact absurd rfl hkind.1
  · exact absurd rfl hkind.2
  · exact List.nodup_dedup _
  · exact List.nodup_dedup _
  · exact List.nodup_dedup _
  · exact List.nodup_dedup _

/-- C4 witness: a text holding the one address twice yields exactly one
deduplicated email entry, which the amended statement certifies as
duplicate-free. -/
theorem c4_entities_witness :
    ("emails".toList, ["a@b.com".toList]) ∈
        extract_entities emailDupLib "contact a@b.com and a@b.com".toList ∧
    (["a@b.com".toList] : List (List Char)).Nodup :=
  ⟨by decide,
   (c4_entities_amended emailDupLib "contact a@b.com and a@b.com".toList
      ("emails".toList, ["a@b.com".toList]) (by decide)).2 (by decide)⟩

/-- C4 counterexample: a text holding the same IP address twice yields an
ip_addresses entry with both occurrences, because that kind is filtered but
never deduplicated; the value list of a present kind is not duplicate-free. -/
theorem c4_entities_counterexample :
    extract_entities ipOnlyLib "1.1.1.1 1.1.1.1".toList =
      [("ip_addresses".toList, ["1.1.1.1".toList, "1.1.1.1".toList])] ∧
    ¬ (["1.1.1.1".toList, "1.1.1.1".toList] : List (List Char)).Nodup := by
  constructor
  · rfl
  · decide

/-! ## Finding flag -/

/-- C6: the assembled Finding has has_matches true exactly when the keyword
match sequence is nonempty or some entity kind carries a nonempty value list;
on the demo page with one keyword occurrence and one email address the flag
is true, the entity map holds exactly the email kind with one value, and
there is exactly one keyword match. -/
theorem c6_has_matches_iff :
    (∀ (keywords : List (List Char)) (lib : RegexLib) (extractEnabled : Bool)
        (page : PageData),
      (parse_content keywords lib extractEnabled page).has_matches = true ↔
        (parse_content keywords lib extractEnabled page).keyword_matches ≠ [] ∨
        ∃ kv ∈ (parse_content keywords lib extractEnabled page).entities,
          kv.2 ≠ []) ∧
    ((parse_content ["bitcoin".toList] demoLib true demoPage).has_matches = true ∧
      (parse_content ["bitcoin".toList] demoLib true demoPage).entities =
        [("emails".toList, ["a@b.com".toList])] ∧
      (parse_content ["bitcoin".toList] demoLib true demoPage).keyword_matches.length
        = 1) := by
  constructor
  · intro keywords lib extractEnabled page
    simp only [parse_content, Bool.or_eq_true, decide_eq_true_eq,
      List.any_eq_true, Bool.not_eq_eq_eq_not, Bool.not_false,
      List.isEmpty_iff, List.length_pos]
    constructor
    · rintro (h | ⟨kv, hkv, hne⟩)
      · exact Or.inl h
      · exact Or.inr ⟨kv, hkv, by simpa using hne⟩
    · rintro (h | ⟨kv, hkv, hne⟩)
      · exact Or.inl h
      · exact Or.inr ⟨kv, hkv, by simpa using hne⟩
  · refine ⟨by decide, by decide, by decide⟩

/-! ## Word-boundary keyword matching -/

/-- Case folding does not change word-character status. -/
lemma isWordNat_lowerNat (n : Nat) : isWordNat (lowerNat n) = isWordNat n := by
  rw [Bool.eq_iff_iff]
  simp only [isWordNat, lowerNat, Bool.or_eq_true, Bool.and_eq_true,
    decide_eq_true_eq, beq_iff_eq]
  by_cases h : 65 ≤ n ∧ n ≤ 90
  · rw [if_pos (by simpa using h)]
    omega
  · rw [if_neg (by simpa using h)]

/-- A literal match pins every subject position of the match to the
corresponding keyword character, up to case folding. -/
lemma litMatchAt_pointwise (s kw : List Char) (i : Nat)
    (h : litMatchAt s kw i = true) :
    ∀ j < kw.length, ∃ c d, s.get? (i + j) = some c ∧ kw.get? j = some d ∧
      lowerCode c = lowerCode d := by
  intro j hj
  have hlen : i + kw.length ≤ s.length := by
    have hl : (((s.drop i).take kw.length).map lowerCode).length =
        ((kw.map lowerCode)).length := by
      rw [beq_iff_eq.mp h]
    simp only [List.length_map, List.length_take, List.length_drop] at hl
    omega
  obtain ⟨c, hc⟩ : ∃ c, s.get? (i + j) = some c :=
    ⟨s.get ⟨i + j, by omega⟩, List.get?_eq_get (by omega)⟩
  obtain ⟨d, hd⟩ : ∃ d, kw.get? j = some d :=
    ⟨kw.get ⟨j, hj⟩, List.get?_eq_get hj⟩
  have heq := congrArg (fun l : List Nat => l.get? j) (beq_iff_eq.mp h)
  simp only [List.get?_map, List.get?_take hj, List.get?_drop, hc, hd,
    Option.map_some'] at heq
  exact ⟨c, d, hc, hd, Option.some_inj.mp heq⟩

/-- A literal match of a nonempty keyword lies inside the subject. -/
lemma litMatchAt_bound (s kw : List Char) (i : Nat) (hne : kw ≠ [])
    (h : litMatchAt s kw i = true) : i + kw.length ≤ s.length := by
  have hl : (((s.drop i).take kw.length).map lowerCode).length =
      ((kw.map lowerCode)).length := by
    rw [beq_iff_eq.mp h]
  simp only [List.length_map, List.length_take, List.length_drop] at hl
  have hpos : 0 < kw.length := List.length_pos.mpr hne
  omega

/-- When every keyword character is a word character, every subject position
of a literal match holds a word character. -/
lemma litMatchAt_word (s kw : List Char) (i : Nat)
    (hword : ∀ c ∈ kw, isWordChar c = true)
    (h : litMatchAt s kw i = true) :
    ∀ j < kw.length, wordAt s (i + j) = true := by
  intro j hj
  obtain ⟨c, d, hc, hd, hcd⟩ := litMatchAt_pointwise s kw i h j hj
  have hdm : d ∈ kw := List.get?_mem hd
  have hwd : isWordNat d.toNat = true := hword d hdm
  simp only [wordAt, hc]
  show isWordNat c.toNat = true
  rw [← isWordNat_lowerNat c.toNat]
  show isWordNat (lowerCode c) = true
  rw [hcd]
  show isWordNat (lowerNat d.toNat) = true
  rw [isWordNat_lowerNat]
  exact hwd

/-- The literal component of a full pattern match. -/
lemma reMatchAt_lit (s kw : List Char) (i : Nat)
    (h : reMatchAt s kw i = true) : litMatchAt s kw i = true := by
  simp only [reMatchAt, Bool.and_eq_true] at h
  tauto

/-- For a nonempty all-word-character keyword, the boundary-anchored pattern
test agrees pointwise with the condition of the specification: a
case-insensitive occurrence with no word character immediately before or
after.  The first and last matched positions are word characters, which turns
each boundary test into the absence of an adjacent word character. -/
lemma reMatchAt_eq_spec (s kw : List Char) (i : Nat) (hne : kw ≠ [])
    (hword : ∀ c ∈ kw, isWordChar c = true) :
    reMatchAt s kw i = specOccursAt s kw i := by
  by_cases hlit : litMatchAt s kw i = true
  · have hpos : 0 < kw.length := List.length_pos.mpr hne
    have h0 : wordAt s i = true := by
      have := litMatchAt_word s kw i hword hlit 0 hpos
      simpa using this
    obtain ⟨L, hL⟩ : ∃ L, kw.length = L + 1 := ⟨kw.length - 1, by omega⟩
    have hlast : wordAt s (i + L) = true :=
      litMatchAt_word s kw i hword hlit L (by omega)
    have hprev : prevWordAt s (i + kw.length) = true := by
      rw [hL]
      have harith : i + (L + 1) = (i + L) + 1 := by omega
      rw [harith]
      exact hlast
    unfold reMatchAt specOccursAt boundaryAt
    rw [hlit, h0, hprev]
    cases hp : prevWordAt s i <;> cases ha : wordAt s (i + kw.length) <;> simp
  · have hlit2 : litMatchAt s kw i = false := Bool.not_eq_true _ ▸ hlit
    unfold reMatchAt specOccursAt
    rw [hlit2]
    simp

/-- Two specification occurrences of an all-word-character keyword cannot
overlap: the position just before the later one lies inside the earlier
match, hence holds a word character, which the later occurrence forbids. -/
lemma specOccurs_no_overlap (s kw : List Char) (a b : Nat)
    (hword : ∀ c ∈ kw, isWordChar c = true)
    (ha : specOccursAt s kw a = true) (hb : specOccursAt s kw b = true)
    (hab : a < b) (hover : b < a + kw.length) : False := by
  simp only [specOccursAt, Bool.and_eq_true, Bool.not_eq_true'] at ha hb
  have hlita : litMatchAt s kw a = true := ha.1.1
  have hwb : wordAt s (a + (b - 1 - a)) = true :=
    litMatchAt_word s kw a hword hlita (b - 1 - a) (by omega)
  have harith : a + (b - 1 - a) = b - 1 := by omega
  rw [harith] at hwb
  obtain ⟨B, rfl⟩ : ∃ B, b = B + 1 := ⟨b - 1, by omega⟩
  have hprevb : prevWordAt s (B + 1) = false := hb.1.2
  have hred : prevWordAt s (B + 1) = wordAt s B := rfl
  rw [hred] at hprevb
  simp only [Nat.add_sub_cancel] at hwb
  rw [hprevb] at hwb
  exact Bool.noConfusion hwb

/-- Scan characterization: with enough fuel, the scanner starting at i
returns exactly the positions at or after i where the full pattern matches.
Completeness holds because occurrences of an all-word-character keyword
cannot overlap, so skipping past the end of a recorded match loses nothing. -/
lemma reFindGo_mem_iff (s kw : List Char) (hne : kw ≠ [])
    (hword : ∀ c ∈ kw, isWordChar c = true) :
    ∀ (fuel i : Nat), s.length < i + fuel →
      ∀ j, j ∈ reFindGo s kw fuel i ↔ (i ≤ j ∧ reMatchAt s kw j = true) := by
  have hpos : 0 < kw.length := List.length_pos.mpr hne
  intro fuel
  induction fuel with
  | zero =>
    intro i hfuel j
    simp only [reFindGo, List.not_mem_nil, false_iff]
    rintro ⟨hij, hm⟩
    have hb := litMatchAt_bound s kw j hne (reMatchAt_lit s kw j hm)
    omega
  | succ fuel ih =>
    intro i hfuel j
    by_cases hlt : i < s.length
    · by_cases hm : reMatchAt s kw i = true
      · simp only [reFindGo, if_pos hlt, if_pos hm, List.mem_cons]
        constructor
        · rintro (rfl | hj)
          · exact ⟨le_rfl, hm⟩
          · have hrec := (ih (i + kw.length) (by omega) j).mp hj
            exact ⟨by omega, hrec.2⟩
        · rintro ⟨hij, hmj⟩
          by_cases heq : j = i
          · exact Or.inl heq
          · right
            have hspec_i : specOccursAt s kw i = true := by
              rw [← reMatchAt_eq_spec s kw i hne hword]
              exact hm
            have hspec_j : specOccursAt s kw j = true := by
              rw [← reMatchAt_eq_spec s kw j hne hword]
              exact hmj
            have hge : i + kw.length ≤ j := by
              by_contra hcon
              exact specOccurs_no_overlap s kw i j hword hspec_i hspec_j
                (by omega) (by omega)
            exact (ih (i + kw.length) (by omega) j).mpr ⟨hge, hmj⟩
      · simp only [reFindGo, if_pos hlt, if_neg hm]
        rw [ih (i + 1) (by omega) j]
        constructor
        · rintro ⟨hij, hmj⟩
          exact ⟨by omega, hmj⟩
        · rintro ⟨hij, hmj⟩
          refine ⟨?_, hmj⟩
          by_cases heq : j = i
          · subst heq
            exact absurd hmj hm
          · omega
    · simp only [reFindGo, if_neg hlt, List.not_mem_nil, false_iff]
      rintro ⟨hij, hmj⟩
      have hb := litMatchAt_bound s kw j hne (reMatchAt_lit s kw j hmj)
      omega

/-- C5 amended: for a nonempty keyword consisting entirely of word
characters, the matcher records position i exactly when the keyword occurs
there case-insensitively with no word character immediately before or after
(the boundary-anchored behaviour the claim states); for keywords whose first
or last character is not a word character the regex word boundary demands an
adjacent word character instead, and the claim fails. -/
theorem c5_word_boundary_amended (s kw : List Char) (i : Nat) (hne : kw ≠ [])
    (hword : ∀ c ∈ kw, isWordChar c = true) :
    i ∈ reFindIter s kw ↔ specOccursAt s kw i = true := by
  unfold reFindIter
  rw [reFindGo_mem_iff s kw hne hword (s.length + 1) 0 (by omega) i]
  rw [reMatchAt_eq_spec s kw i hne hword]
  simp

/-- C5 witness: keyword bitcoin in the text Bitcoin wallet is recorded at
position 0 (case-insensitive, boundary-anchored). -/
theorem c5_word_boundary_witness :
    0 ∈ reFindIter "Bitcoin wallet".toList "bitcoin".toList ∧
    reFindIter "bitcoincash".toList "bitcoin".toList = [] :=
  ⟨(c5_word_boundary_amended "Bitcoin wallet".toList "bitcoin".toList 0
      (by decide) (by decide)).mpr (by decide),
   by decide⟩

/-- C5 counterexample: with the keyword consisting of the single dot
character, the scanner records position 1 of the text a.b, although that
occurrence is both preceded and followed by word characters, which the
claimed acceptance condition forbids: for a keyword made of non-word
characters the regex boundary anchors inverts the stated condition. -/
theorem c5_word_boundary_counterexample :
    reFindIter "a.b".toList ['.'] = [1] ∧
    specOccursAt "a.b".toList ['.'] 1 = false := by
  constructor
  · rfl
  · rfl
